import Mathlib

/-!
Verification of the Fitpass capacity-updater's target-resolution engine
(`server.js`): time-string parsing and normalization, candidate scoring,
the two-stage match gate, and the non-destructive modal close.  Strings
are modelled as `List Char`; JavaScript's `null` becomes `Option`.
-/

/-- JavaScript's regex `\s` class, restricted to the ASCII whitespace the
engine ever meets. -/
def jsWs (c : Char) : Bool := c.isWhitespace

/-- `String.prototype.toLowerCase`, character-wise. -/
def lowerList (l : List Char) : List Char := l.map Char.toLower

/-- `String.prototype.trim`: strip whitespace from both ends. -/
def trimList (l : List Char) : List Char :=
  ((l.dropWhile jsWs).reverse.dropWhile jsWs).reverse

/-- `hay.includes(pat)` from JavaScript: `jsIncludes pat hay` is true iff
`pat` occurs contiguously in `hay`. -/
def jsIncludes (pat : List Char) : List Char → Bool
  | [] => pat.isEmpty
  | c :: t => pat.isPrefixOf (c :: t) || jsIncludes pat t

/-- Consume one optional literal dot (`\.?`). -/
def dropDot : List Char → List Char
  | [] => []
  | c :: t => if c = '.' then t else c :: t

/-- Consume `\s*\.?\s*`: whitespace, an optional dot, more whitespace. -/
def sepSkip (l : List Char) : List Char :=
  match l.dropWhile jsWs with
  | [] => []
  | c :: t => if c = '.' then t.dropWhile jsWs else c :: t

/-- After the leading meridiem letter, match `\s*\.?\s*m\.?` and return the
remainder of the text (the tail of one global-replace match of
`/a\s*\.?\s*m\.?/` or `/p\s*\.?\s*m\.?/`). -/
def merTail (l : List Char) : Option (List Char) :=
  match sepSkip l with
  | c :: t => if c = 'm' then some (dropDot t) else none
  | [] => none

/-- Fuelled scanner for one global-replace pass of `/x\s*\.?\s*m\.?/gi`
with replacement `"xm"` (`x` is `'a'` or `'p'`): the scanner of
`String.prototype.replace` with a `g` flag moves left to right and resumes
after each match.  The fuel only forces structural recursion; any fuel at
least the list's length gives the same answer (`replaceMerF_irrel`). -/
def replaceMerF (x : Char) : Nat → List Char → List Char
  | _, [] => []
  | 0, l => l
  | fuel + 1, c :: t =>
    if c = x then
      match merTail t with
      | some rest => x :: 'm' :: replaceMerF x fuel rest
      | none => c :: replaceMerF x fuel t
    else c :: replaceMerF x fuel t

/-- One global-replace pass, with the fuel fixed to the input length. -/
def replaceMer (x : Char) (l : List Char) : List Char :=
  replaceMerF x l.length l

/-- `normTimeTokens` from `server.js`: lowercase, then collapse the locale
variants of the meridiem markers into canonical `"am"` / `"pm"`. -/
def normTimeTokens (l : List Char) : List Char :=
  replaceMer 'p' (replaceMer 'a' (lowerList l))

/-- Numeric value of a decimal digit character (`parseInt` on one digit). -/
def dval (c : Char) : Nat := c.toNat - 48

/-- Greedy `(\d{1,2})` at the start of the text: two digits when possible,
else one.  (When two digits are present the one-digit alternative can never
rescue a failed parse, because the separator position would then hold a
digit, so the greedy choice is faithful to the regex backtracker.) -/
def splitHour : List Char → Option (Nat × List Char)
  | [] => none
  | [c1] => if c1.isDigit then some (dval c1, []) else none
  | c1 :: c2 :: rest =>
    if c1.isDigit then
      if c2.isDigit then some (dval c1 * 10 + dval c2, rest)
      else some (dval c1, c2 :: rest)
    else none

/-- The `[:.]` separator class. -/
def isSep (c : Char) : Bool := c = ':' || c = '.'

/-- The optional anchored meridiem group `(am|pm|a\.?m\.?|p\.?m\.?)` with the
`i` flag: a meridiem letter, an optional dot, `m`, an optional dot.  Returns
whether the marker is `pm` (the source tests `/p/` on the dot-and-space
stripped marker) and the remaining text. -/
def apParse : List Char → Option (Bool × List Char)
  | [] => none
  | c :: rest =>
    if c.toLower = 'a' || c.toLower = 'p' then
      match dropDot rest with
      | [] => none
      | m :: r2 =>
        if m.toLower = 'm' then some (c.toLower = 'p', dropDot r2) else none
    else none

/-- The two sequential hour rewrites of `toMinutes`:
`if (h === 12 && !isPM) h = 0; if (h !== 12 && isPM) h += 12;`. -/
def adjustHour (h : Nat) (isPM : Bool) : Nat :=
  let h1 := if h = 12 ∧ isPM = false then 0 else h
  if h1 ≠ 12 ∧ isPM = true then h1 + 12 else h1

/-- `toMinutes` from `server.js`: match
`/^\s*(\d{1,2})[:\.](\d{2})\s*(am|pm|a\.?m\.?|p\.?m\.?)?\s*$/i` and return
minutes past midnight, or `none` when the expression does not match. -/
def toMinutes (l : List Char) : Option Nat :=
  match splitHour (l.dropWhile jsWs) with
  | none => none
  | some (h, r1) =>
    match r1 with
    | [] => none
    | sep :: r2 =>
      if isSep sep then
        match r2 with
        | m1 :: m2 :: r3 =>
          if m1.isDigit && m2.isDigit then
            let mn := dval m1 * 10 + dval m2
            let r4 := r3.dropWhile jsWs
            match apParse r4 with
            | some (isPM, r5) =>
              if (r5.dropWhile jsWs).isEmpty then
                some (adjustHour h isPM * 60 + mn)
              else none
            | none => if r4.isEmpty then some (h * 60 + mn) else none
          else none
        | _ => none
      else none

/-- The trailing `\s*(am|pm)?` of the unanchored search in
`extractStartTimeMinutes`: skip whitespace, then take a literal two-letter
`am`/`pm` token if present, returning its meridiem letter. -/
def apScan (l : List Char) : Option Char :=
  match l.dropWhile jsWs with
  | x :: y :: _ =>
    if (x.toLower = 'a' || x.toLower = 'p') && y.toLower = 'm' then
      some x.toLower
    else none
  | _ => none

/-- One attempt of `/(\d{1,2})[:\.](\d{2})\s*(am|pm)?/i` anchored at the
current scan position: returns the digit substrings of the hour and minute
groups and the optional meridiem letter. -/
def timeMatchAt : List Char → Option (List Char × List Char × Option Char)
  | [] => none
  | [_] => none
  | c1 :: c2 :: rest =>
    if c1.isDigit then
      if c2.isDigit then
        match rest with
        | s :: m1 :: m2 :: r3 =>
          if isSep s && (m1.isDigit && m2.isDigit) then
            some ([c1, c2], [m1, m2], apScan r3)
          else none
        | _ => none
      else if isSep c2 then
        match rest with
        | m1 :: m2 :: r3 =>
          if m1.isDigit && m2.isDigit then
            some ([c1], [m1, m2], apScan r3)
          else none
        | _ => none
      else none
    else none

/-- Leftmost match of the unanchored time regex: try every start position
from the left, as the JavaScript engine does. -/
def findTime : List Char → Option (List Char × List Char × Option Char)
  | [] => none
  | c :: t =>
    match timeMatchAt (c :: t) with
    | some r => some r
    | none => findTime t

/-- `extractStartTimeMinutes` from `server.js`: normalize, find the first
time-like substring, rebuild `` `${hh}:${mm}${ap ? " " + ap : ""}` `` and
feed it to `toMinutes`. -/
def extractStartTimeMinutes (l : List Char) : Option Nat :=
  match findTime (normTimeTokens l) with
  | none => none
  | some (hh, mm, ap) =>
    toMinutes (hh ++ ':' :: mm ++ (match ap with
                                   | none => []
                                   | some c => [' ', c, 'm']))

/-- `replace(/\s+/g, " ")`: each maximal whitespace run becomes one space. -/
def collapseWsF : Nat → List Char → List Char
  | _, [] => []
  | 0, l => l
  | fuel + 1, c :: t =>
    if jsWs c then ' ' :: collapseWsF fuel (t.dropWhile jsWs)
    else c :: collapseWsF fuel t

/-- Whitespace-run collapsing with the fuel fixed to the input length. -/
def collapseWs (l : List Char) : List Char := collapseWsF l.length l

/-- The candidate preview built in `openCorrectEvent`:
`textContent.toLowerCase()`, then `.trim().replace(/\s+/g, " ").slice(0, 160)`. -/
def previewOf (txt : List Char) : List Char :=
  (collapseWs (trimList (lowerList txt))).take 160

/-- JavaScript truthiness of a number-or-null: `null` and `0` are falsy. -/
def truthyNum : Option Nat → Bool
  | none => false
  | some n => !(n == 0)

/-- JavaScript numeric coercion of a number-or-null (`null` coerces to 0)
as it happens inside `Math.abs(startMins - targetMins)`. -/
def jsNum : Option Nat → Int
  | none => 0
  | some n => n

/-- The time component of a candidate's score:
`startMins === targetMins ? 100 : startMins ? Math.max(0, 100 - Math.abs(startMins - targetMins)) : 0`. -/
def timeScore (startMins targetMins : Option Nat) : Nat :=
  if startMins = targetMins then 100
  else if truthyNum startMins then
    ((100 : Int) - ((jsNum startMins - jsNum targetMins).natAbs : Int)).toNat
  else 0

/-- The name component of a candidate's score:
`TARGET_NAME ? (preview.includes(TARGET_NAME.toLowerCase()) ? 50 : 0) : 50`. -/
def nameScore (targetName preview : List Char) : Nat :=
  if targetName.isEmpty then 50
  else if jsIncludes (lowerList targetName) preview then 50 else 0

/-- Total score of one date-matching candidate in `openCorrectEvent`. -/
def candScore (preview targetName : List Char) (targetMins : Option Nat) : Nat :=
  timeScore (extractStartTimeMinutes preview) targetMins
    + nameScore targetName preview

/-- The job's target, as passed through `runFitpass` to the gate checks. -/
structure Target where
  date : List Char
  time : List Char
  name : List Char
  strictRequireName : Bool

/-- `modalMatchesTarget` from `server.js`, as a pure function of the
overlay's `innerText`.  Mirrors the create-modal rejection and the
`STRICT_REQUIRE_NAME ? timeOK && nameOK : timeOK && nameOK` tail. -/
def modalMatchesTarget (modalText : List Char) (tgt : Target) : Bool :=
  let txt := normTimeTokens modalText
  let startMins := extractStartTimeMinutes txt
  let targetMins := toMinutes tgt.time
  let timeOK : Bool := startMins = targetMins
  let nameOK : Bool :=
    if tgt.name.isEmpty then true
    else jsIncludes (lowerList tgt.name) (lowerList txt)
  let isCreateModal : Bool :=
    !(jsIncludes "hora de la clase".toList txt) &&
    !(jsIncludes "fecha de inicio".toList txt) &&
    (jsIncludes "disciplina".toList txt || jsIncludes "cupo fitpass".toList txt)
  if isCreateModal then false
  else if tgt.strictRequireName then timeOK && nameOK else timeOK && nameOK

/-- `formMatchesTarget` from `server.js`, as a pure function of the edit
form's `innerText` and the whole page body's `innerText`. -/
def formMatchesTarget (formText bodyText : List Char) (tgt : Target) : Bool :=
  let txt := normTimeTokens formText
  let startMins := extractStartTimeMinutes txt
  let targetMins := toMinutes tgt.time
  let timeOK : Bool := startMins = targetMins
  let nameOK : Bool :=
    if tgt.name.isEmpty then true
    else jsIncludes (lowerList tgt.name) (lowerList txt)
  let pageTxt := normTimeTokens bodyText
  let dateOK : Bool := jsIncludes tgt.date pageTxt
  (if tgt.strictRequireName then timeOK && nameOK else timeOK && nameOK) && dateOK

/-- A close-like control inside the open overlay: whether it matches each of
the four safe-close selectors of `closeModalIfOpen`, and its `textContent`. -/
structure CloseControl where
  sel0 : Bool
  sel1 : Bool
  sel2 : Bool
  sel3 : Bool
  label : List Char
deriving DecidableEq

/-- The deny-listed destructive label test of `closeModalIfOpen`:
`["cancelar clase","eliminar","borrar","delete","remove"].some(k => text.includes(k))`
applied to `textContent.toLowerCase().trim()`. -/
def isDestructiveLabel (label : List Char) : Bool :=
  let text := trimList (lowerList label)
  ["cancelar clase", "eliminar", "borrar", "delete", "remove"].any
    (fun k => jsIncludes k.toList text)

/-- What the close routine ends up doing: activate one control, or fall back
to the Escape key press. -/
inductive CloseAction where
  | click (c : CloseControl)
  | escape
deriving DecidableEq

/-- The selector loop of `closeModalIfOpen`: for each selector in order,
`page.$` yields the first matching control; a control with a deny-listed
label is skipped (`continue`), otherwise it is clicked. -/
def closeScan (cs : List CloseControl) : List (CloseControl → Bool) → CloseAction
  | [] => CloseAction.escape
  | p :: ps =>
    match cs.find? p with
    | some c => if isDestructiveLabel c.label then closeScan cs ps
                else CloseAction.click c
    | none => closeScan cs ps

/-- `closeModalIfOpen` from `server.js` over the overlay's close-like
controls, with its four safe-close selectors in source order. -/
def closeModalIfOpen (cs : List CloseControl) : CloseAction :=
  closeScan cs
    [fun c => c.sel0, fun c => c.sel1, fun c => c.sel2, fun c => c.sel3]

/-- A rendered calendar event element: the date markers found on it or its
ancestors (`data-date` / `data-navlink`), and its `textContent`. -/
structure EventElem where
  dateKeys : List (List Char)
  text : List Char
deriving DecidableEq

/-- The page as the resolution engine observes it: the rendered events, the
overlay text shown after clicking a candidate, the edit form's text and the
whole body text after advancing to the edit view. -/
structure PageView where
  events : List EventElem
  modalText : List Char
  formText : List Char
  bodyText : List Char

/-- The `dateEvents` previews of `openCorrectEvent`: events owned by the
target date, in DOM order, each reduced to its bounded preview. -/
def dateCandidates (p : PageView) (d : List Char) : List (List Char) :=
  (p.events.filter (fun e => e.dateKeys.contains d)).map
    (fun e => previewOf e.text)

/-- `scored[0]` after the stable descending sort: the first candidate with
the maximal score (V8's sort is stable, so ties keep enumeration order). -/
def bestCandidate (cands : List (List Char)) (tName : List Char)
    (tMins : Option Nat) : Option (List Char) :=
  cands.foldl
    (fun acc pv =>
      match acc with
      | none => some pv
      | some b =>
        if candScore pv tName tMins > candScore b tName tMins then some pv
        else acc)
    none

/-- The observable steps of one resolution run, in order. -/
inductive EngineAction where
  | clickEvent
  | gateOverlay (ok : Bool)
  | closeModal
  | clickEdit
  | gateForm (ok : Bool)
  | mutateCapacity
  | save
  | confirmSingle
deriving DecidableEq

/-- `openCorrectEvent` from `server.js` as a step trace: enumerate and score
the same-date candidates, click the best, run the overlay gate (closing the
modal and bailing out on rejection), advance to the edit view, and run the
form gate.  Returns the boolean the caller sees plus the action trace. -/
def openCorrectEvent (p : PageView) (tgt : Target) : Bool × List EngineAction :=
  let cands := dateCandidates p tgt.date
  if cands.isEmpty then (false, [])
  else
    match bestCandidate cands tgt.name (toMinutes tgt.time) with
    | none => (false, [])
    | some _ =>
      if modalMatchesTarget p.modalText tgt then
        let okForm := formMatchesTarget p.formText p.bodyText tgt
        (okForm,
          [EngineAction.clickEvent, EngineAction.gateOverlay true,
           EngineAction.clickEdit, EngineAction.gateForm okForm])
      else
        (false,
          [EngineAction.clickEvent, EngineAction.gateOverlay false,
           EngineAction.closeModal])

/-- Steps 4–7 of `runFitpass`: open the matching event, and only when that
reports success, fill the capacity field, save, and confirm
"Editar solo esta clase". -/
def resolveAndMutate (p : PageView) (tgt : Target) : Bool × List EngineAction :=
  let r := openCorrectEvent p tgt
  if r.1 then
    (true, r.2 ++ [EngineAction.mutateCapacity, EngineAction.save,
                   EngineAction.confirmSingle])
  else (false, r.2)

/-- The timeScore formula as the specification words it (§4.3): 100 on an
exact match, otherwise `max(0, 100 - |delta|)` whenever a start time was
extracted at all, otherwise 0.  Stated over a parsed target minute; kept
separate from `timeScore`, which is translated from the code, so the two
can be compared. -/
def specTimeScore (s : Option Nat) (t : Nat) : Nat :=
  match s with
  | none => 0
  | some sv =>
    if sv = t then 100 else ((100 : Int) - (((sv : Int) - (t : Int)).natAbs : Int)).toNat

/-- A page on which the whole resolution pipeline succeeds. -/
def pageAllPass : PageView :=
  { events := [⟨["2025-03-10".toList], "7:00 am Reformer Pilates".toList⟩],
    modalText := "hora de la clase 7:00 am Reformer Pilates".toList,
    formText := "hora de la clase 7:00 am Reformer Pilates".toList,
    bodyText := "calendario 2025-03-10 edicion".toList }

/-- A page whose overlay matches but whose edit form does not. -/
def pageFormReject : PageView :=
  { events := [⟨["2025-03-10".toList], "7:00 am Reformer".toList⟩],
    modalText := "hora de la clase 7:00 am Reformer".toList,
    formText := "sin datos".toList,
    bodyText := "otra vista".toList }

/-- A page whose overlay shows a different class time than the target. -/
def pageModalReject : PageView :=
  { events := [⟨["2025-03-10".toList], "9:00 am Yoga".toList⟩],
    modalText := "hora de la clase 9:00 am Yoga".toList,
    formText := "hora de la clase 9:00 am Yoga".toList,
    bodyText := "calendario 2025-03-10".toList }

/-- The target used by the concrete gate scenarios. -/
def targetBasic : Target :=
  ⟨"2025-03-10".toList, "7:00".toList, "".toList, true⟩

/-- An event text whose target name appears only after the 160th
normalized character. -/
def longEventText : List Char := List.replicate 160 'x' ++ " yoga".toList

/-- First non-whitespace character of a text, if any. -/
def firstNonWs (l : List Char) : Option Char := (l.dropWhile jsWs).head?

/-- A text is normal for the meridiem letter `x` when every occurrence of
`x` that is followed (after optional whitespace) by an `m` is in fact
followed *immediately* by that `m` — i.e. no further collapse of an
`x … m` group is possible. -/
def MerNormal (x : Char) (l : List Char) : Prop :=
  ∀ u v, l = u ++ x :: v → firstNonWs v = some 'm' → v.head? = some 'm'

theorem dropDot_suffix (l : List Char) : dropDot l <:+ l := by
  cases l with
  | nil => exact List.suffix_refl _
  | cons c t =>
    simp only [dropDot]
    by_cases h : c = '.'
    · rw [if_pos h]; exact ⟨[c], rfl⟩
    · rw [if_neg h]

theorem sepSkip_suffix (l : List Char) : sepSkip l <:+ l := by
  unfold sepSkip
  have h1 : l.dropWhile jsWs <:+ l := List.dropWhile_suffix _
  rcases hd : l.dropWhile jsWs with _ | ⟨c, t⟩ <;> rw [hd] at h1
  · exact List.nil_suffix
  · simp only
    by_cases hc : c = '.'
    · rw [if_pos hc]
      calc t.dropWhile jsWs <:+ t := List.dropWhile_suffix _
        _ <:+ c :: t := ⟨[c], rfl⟩
        _ <:+ l := h1
    · rw [if_neg hc]
      exact h1

theorem merTail_suffix {l r : List Char} (h : merTail l = some r) : r <:+ l := by
  unfold merTail at h
  rcases hs : sepSkip l with _ | ⟨c, t⟩ <;> rw [hs] at h
  · cases h
  · simp only at h
    by_cases hc : c = 'm'
    · rw [if_pos hc] at h
      cases h
      calc dropDot t <:+ t := dropDot_suffix t
        _ <:+ c :: t := ⟨[c], rfl⟩
        _ <:+ l := hs ▸ sepSkip_suffix l
    · rw [if_neg hc] at h; cases h

theorem merTail_length {l r : List Char} (h : merTail l = some r) :
    r.length ≤ l.length :=
  (merTail_suffix h).length_le

theorem replaceMerF_irrel (x : Char) :
    ∀ (fuel fuel' : Nat) (l : List Char), l.length ≤ fuel → l.length ≤ fuel' →
      replaceMerF x fuel l = replaceMerF x fuel' l := by
  intro fuel
  induction fuel with
  | zero =>
    intro fuel' l hl _
    cases l with
    | nil => cases fuel' <;> rfl
    | cons c t => simp at hl
  | succ n ih =>
    intro fuel' l hl hl'
    cases l with
    | nil => cases fuel' <;> rfl
    | cons c t =>
      cases fuel' with
      | zero => simp at hl'
      | succ n' =>
        simp only [replaceMerF]
        by_cases hc : c = x
        · rw [if_pos hc, if_pos hc]
          rcases hm : merTail t with _ | rest
        <;> simp only
          · rw [ih n' t (by simpa using hl) (by simpa using hl')]
          · have hr := merTail_length hm
            rw [ih n' rest (by simp at hl; omega) (by simp at hl'; omega)]
        · rw [if_neg hc, if_neg hc,
            ih n' t (by simpa using hl) (by simpa using hl')]

theorem replaceMer_nil (x : Char) : replaceMer x [] = [] := rfl

theorem replaceMer_cons (x c : Char) (t : List Char) :
    replaceMer x (c :: t) =
      if c = x then
        match merTail t with
        | some rest => x :: 'm' :: replaceMer x rest
        | none => c :: replaceMer x t
      else c :: replaceMer x t := by
  unfold replaceMer
  simp only [List.length_cons, replaceMerF]
  by_cases hc : c = x
  · rw [if_pos hc, if_pos hc]
    rcases hm : merTail t with _ | rest
    · rfl
    · have hr := merTail_length hm
      show x :: 'm' :: replaceMerF x t.length rest = x :: 'm' :: replaceMer x rest
      rw [replaceMerF_irrel x t.length rest.length rest hr (le_refl _)]
      rfl
  · rw [if_neg hc, if_neg hc]

example : normTimeTokens "7:00 A. M. Yoga".toList = "7:00 am yoga".toList := by decide

example : normTimeTokens "a.m..".toList = "am.".toList := by decide

example : normTimeTokens "am.".toList = "am".toList := by decide

example : toMinutes "12:00 am".toList = some 0 := by decide

example : toMinutes "12:00 pm".toList = some 720 := by decide

example : toMinutes "1:00 pm".toList = some 780 := by decide

example : toMinutes "12:00".toList = some 720 := by decide

example : toMinutes "  7.30 P.M. ".toList = some 1170 := by decide

example : toMinutes "7:30 P. M.".toList = none := by decide

example : toMinutes "25:00".toList = some 1500 := by decide

example : toMinutes "99:99 pm".toList = some 6759 := by decide

example : toMinutes "morning".toList = none := by decide

example : toMinutes "1:00 am.x".toList = none := by decide

example : toMinutes "123:45".toList = none := by decide

example : extractStartTimeMinutes "07:00 am - 07:50 am Reformer".toList = some 420 := by decide

example : extractStartTimeMinutes "sin hora".toList = none := by decide

example : extractStartTimeMinutes "12:00 am spin".toList = some 0 := by decide

example : extractStartTimeMinutes "hora de la clase 7:00".toList = some 420 := by decide

example : previewOf "  Spin   CLASS\n7:00 am  ".toList = "spin class 7:00 am".toList := by decide

example : candScore "7:00 spin".toList "yoga".toList (toMinutes "7:00".toList) = 100 := by decide

example : candScore "7:10 yoga".toList "yoga".toList (toMinutes "7:00".toList) = 140 := by decide

example :
    closeModalIfOpen [⟨true, false, false, false, " Cancelar Clase ".toList⟩,
      ⟨false, true, false, false, "ELIMINAR".toList⟩] = CloseAction.escape := by decide

example :
    closeModalIfOpen [⟨true, false, false, false, "Cancelar clase".toList⟩,
      ⟨false, true, false, false, "Cerrar".toList⟩] =
      CloseAction.click ⟨false, true, false, false, "Cerrar".toList⟩ := by decide

theorem closeScan_click_safe (cs : List CloseControl) :
    ∀ (ps : List (CloseControl → Bool)) (c : CloseControl),
      closeScan cs ps = CloseAction.click c →
        isDestructiveLabel c.label = false := by
  intro ps
  induction ps with
  | nil => intro c h; cases h
  | cons p ps ih =>
    intro c h
    unfold closeScan at h
    split at h
    · split at h
      · exact ih c h
      · next hd =>
          injection h with h1
          subst h1
          simpa using hd
    · exact ih c h

theorem closeScan_all_destructive (cs : List CloseControl)
    (hall : ∀ c ∈ cs, isDestructiveLabel c.label = true) :
    ∀ ps : List (CloseControl → Bool), closeScan cs ps = CloseAction.escape := by
  intro ps
  induction ps with
  | nil => rfl
  | cons p ps ih =>
    unfold closeScan
    split
    · next c0 hf =>
        have hm := List.mem_of_find?_eq_some hf
        rw [if_pos (hall c0 hm)]
        exact ih
    · exact ih

/-- C1: the overlay-close routine never activates a close control whose
visible label contains a deny-listed destructive substring, and when every
close-like control carries such a label it falls back to the Escape
dismiss gesture. -/
theorem close_routine_never_destructive :
    (∀ (cs : List CloseControl) (c : CloseControl),
        closeModalIfOpen cs = CloseAction.click c →
          isDestructiveLabel c.label = false) ∧
    (∀ cs : List CloseControl,
        (∀ c ∈ cs, isDestructiveLabel c.label = true) →
          closeModalIfOpen cs = CloseAction.escape) :=
  ⟨fun cs c h => closeScan_click_safe cs _ c h,
   fun cs hall => closeScan_all_destructive cs hall _⟩

theorem close_routine_never_destructive_witness :
    closeModalIfOpen [⟨true, false, false, false, "Cancelar clase".toList⟩,
        ⟨false, true, false, false, "Eliminar".toList⟩] = CloseAction.escape :=
  close_routine_never_destructive.2 _ (by decide)

/-- C8: the `STRICT_REQUIRE_NAME` flag has no effect on either gate's match
decision — both modes apply the same time-and-name conjunction. -/
theorem strict_flag_has_no_effect
    (modalText formText bodyText d t n : List Char) :
    modalMatchesTarget modalText ⟨d, t, n, true⟩
        = modalMatchesTarget modalText ⟨d, t, n, false⟩ ∧
    formMatchesTarget formText bodyText ⟨d, t, n, true⟩
        = formMatchesTarget formText bodyText ⟨d, t, n, false⟩ :=
  ⟨rfl, rfl⟩

/-- C3: contrary to the claim, the code compares the two unparseable-time
sentinels with `===`, under which `null === null` holds: with an
unparseable target time and an overlay carrying no time-like text, `timeOK`
is true, the overlay gate confirms, and `timeScore` is 100 rather than 0. -/
theorem null_start_equals_null_target :
    toMinutes "morning".toList = none ∧
    extractStartTimeMinutes "sin hora".toList = none ∧
    modalMatchesTarget "sin hora".toList
      ⟨"2025-03-10".toList, "morning".toList, [], true⟩ = true ∧
    timeScore none none = 100 := by
  refine ⟨by decide, by decide, by decide, by decide⟩

/-- C4 counterexample: `toMinutes("12:00")` (no meridiem marker) evaluates
to 720, not the 0 the claim states. -/
theorem twelve_no_marker_not_zero :
    toMinutes "12:00".toList = some 720 ∧ toMinutes "12:00".toList ≠ some 0 := by
  refine ⟨by decide, by decide⟩

/-- C4 (amended): hour 12 with an "am" marker maps to 0 and with "pm" stays
12; any other hour gains 12 hours under "pm"; but with *no* marker the hour
is taken at face value, so `toMinutes("12:00") = 720`. -/
theorem twelve_hour_convention :
    toMinutes "12:00 am".toList = some 0 ∧
    toMinutes "12:00 pm".toList = some 720 ∧
    toMinutes "1:00 pm".toList = some 780 ∧
    toMinutes "12:00".toList = some 720 ∧
    (∀ h : Nat, h ≠ 12 → adjustHour h true = h + 12) ∧
    (∀ h : Nat, h ≠ 12 → adjustHour h false = h) ∧
    adjustHour 12 false = 0 ∧ adjustHour 12 true = 12 := by
  refine ⟨by decide, by decide, by decide, by decide, ?_, ?_, by decide, by decide⟩
  · intro h hh
    simp [adjustHour, hh]
  · intro h hh
    simp [adjustHour, hh]

theorem twelve_hour_convention_witness :
    adjustHour 3 true = 15 ∧ adjustHour 3 false = 3 :=
  ⟨twelve_hour_convention.2.2.2.2.1 3 (by decide),
   twelve_hour_convention.2.2.2.2.2.1 3 (by decide)⟩

theorem dval_le_nine (c : Char) (h : c.isDigit = true) : dval c ≤ 9 := by
  simp only [Char.isDigit, Bool.and_eq_true, decide_eq_true_eq] at h
  obtain ⟨h1, h2⟩ := h
  rw [UInt32.le_def] at h2
  have h3 : c.val.toNat ≤ 57 := h2
  simp only [dval, Char.toNat]
  omega

theorem splitHour_le {l r : List Char} {h : Nat}
    (hs : splitHour l = some (h, r)) : h ≤ 99 := by
  unfold splitHour at hs
  split at hs
  · cases hs
  · next c1 =>
      split at hs
      · next hd =>
          injection hs with hs1
          cases hs1
          have := dval_le_nine c1 hd
          omega
      · cases hs
  · next c1 c2 rest =>
      split at hs
      · next hd1 =>
          split at hs
          · next hd2 =>
              injection hs with hs1
              cases hs1
              have := dval_le_nine c1 hd1
              have := dval_le_nine c2 hd2
              omega
          · injection hs with hs1
            cases hs1
            have := dval_le_nine c1 hd1
            omega
      · cases hs

theorem adjustHour_le (h : Nat) (b : Bool) : adjustHour h b ≤ h + 12 := by
  simp only [adjustHour]
  split <;> split <;> omega

theorem toMinutes_le {l : List Char} {v : Nat} (h : toMinutes l = some v) :
    v ≤ 6759 := by
  simp only [toMinutes] at h
  split at h
  · cases h
  · next h0 r1 hsplit =>
      have hh : h0 ≤ 99 := splitHour_le hsplit
      split at h
      · cases h
      · split at h
        · split at h
          · next m1 m2 r3 =>
              split at h
              · next hdig =>
                  simp only [Bool.and_eq_true] at hdig
                  have hm1 := dval_le_nine m1 hdig.1
                  have hm2 := dval_le_nine m2 hdig.2
                  split at h
                  · next isPM r5 hap =>
                      split at h
                      · injection h with h1
                        have := adjustHour_le h0 isPM
                        omega
                      · cases h
                  · split at h
                    · injection h with h1
                      omega
                    · cases h
              · cases h
          · cases h
        · cases h

/-- C5 counterexample: an hour field outside clock range produces a defined
value above 1439 — `toMinutes("25:00")` is 1500. -/
theorem minute_value_above_range :
    toMinutes "25:00".toList = some 1500 ∧ ¬ (1500 : Nat) ≤ 1439 := by
  refine ⟨by decide, by decide⟩

/-- C5 (amended): every defined result of `toMinutes` and of
`extractStartTimeMinutes` lies in `[0, 6759]` (hour field at most 99, plus
the 12-hour pm shift, minute field at most 99); the claimed `[0, 1439]`
bound fails for out-of-clock-range fields such as "25:00". -/
theorem minute_values_bounded :
    (∀ (l : List Char) (v : Nat), toMinutes l = some v → v ≤ 6759) ∧
    (∀ (l : List Char) (v : Nat), extractStartTimeMinutes l = some v → v ≤ 6759) := by
  refine ⟨fun l v h => toMinutes_le h, fun l v h => ?_⟩
  unfold extractStartTimeMinutes at h
  split at h
  · cases h
  · exact toMinutes_le h

theorem minute_values_bounded_witness :
    (6759 : Nat) ≤ 6759 ∧ (495 : Nat) ≤ 6759 :=
  ⟨minute_values_bounded.1 "99:99 pm".toList 6759 (by decide),
   minute_values_bounded.2 "clase 8:15 am hoy".toList 495 (by decide)⟩

/-- C6 counterexample: a candidate whose extracted start minute is 0
(12:00 am) and whose target is 0:30 gets code `timeScore` 0 — JavaScript's
`startMins ? ... : 0` treats the number 0 as "no start time" — while the
claimed formula gives `max(0, 100 - 30) = 70`. -/
theorem scoring_breaks_at_midnight :
    extractStartTimeMinutes "12:00 am spin".toList = some 0 ∧
    toMinutes "0:30".toList = some 30 ∧
    timeScore (extractStartTimeMinutes "12:00 am spin".toList)
      (toMinutes "0:30".toList) = 0 ∧
    specTimeScore (extractStartTimeMinutes "12:00 am spin".toList) 30 = 70 := by
  refine ⟨by decide, by decide, by decide, by decide⟩

/-- C6 (amended): the additive scoring formula holds as claimed whenever the
extracted start minute is not the JavaScript-falsy 0: timeScore is 100 on an
exact match, else the linear decay when a (nonzero) start was extracted,
else 0; nameScore is 50 without a name constraint or on a case-insensitive
preview hit, else 0; the total is their sum — so the claim's concrete
candidates score 100 and 140. -/
theorem scoring_formula_holds :
    (∀ (pv name : List Char) (tm : Nat), extractStartTimeMinutes pv ≠ some 0 →
        candScore pv name (some tm) =
          specTimeScore (extractStartTimeMinutes pv) tm + nameScore name pv) ∧
    candScore "7:00 spin".toList "yoga".toList (toMinutes "7:00".toList) = 100 ∧
    candScore "7:10 yoga".toList "yoga".toList (toMinutes "7:00".toList) = 140 := by
  refine ⟨?_, by decide, by decide⟩
  intro pv name tm hz
  unfold candScore timeScore specTimeScore
  rcases hs : extractStartTimeMinutes pv with _ | sv
  · simp [truthyNum]
  · rw [hs] at hz
    have hsv : sv ≠ 0 := fun h0 => hz (by rw [h0])
    by_cases he : sv = tm
    · simp [he]
    · have hne : (some sv : Option Nat) ≠ some tm := by
        intro hcontra; exact he (Option.some.injEq _ _ ▸ hcontra)
      simp [truthyNum, hsv, jsNum, hne, he]

theorem scoring_formula_holds_witness :
    candScore "7:00 spin".toList "yoga".toList (some 420) =
      specTimeScore (extractStartTimeMinutes "7:00 spin".toList) 420 +
        nameScore "yoga".toList "7:00 spin".toList :=
  scoring_formula_holds.1 "7:00 spin".toList "yoga".toList 420 (by decide)

/-- C2: the capacity mutation appears in a run's trace only when both gate
stages have confirmed, in sequence — the full trace is then exactly
click, overlay-pass, advance, form-pass, mutate, save, confirm; no path
mutates after only one (or neither) stage passed. -/
theorem mutation_requires_both_gates (p : PageView) (tgt : Target)
    (h : EngineAction.mutateCapacity ∈ (resolveAndMutate p tgt).2) :
    modalMatchesTarget p.modalText tgt = true ∧
    formMatchesTarget p.formText p.bodyText tgt = true ∧
    (resolveAndMutate p tgt).2 =
      [EngineAction.clickEvent, EngineAction.gateOverlay true,
       EngineAction.clickEdit, EngineAction.gateForm true,
       EngineAction.mutateCapacity, EngineAction.save,
       EngineAction.confirmSingle] := by
  unfold resolveAndMutate openCorrectEvent at h ⊢
  by_cases hce : (dateCandidates p tgt.date).isEmpty
  · simp [hce] at h
  · rcases hb : bestCandidate (dateCandidates p tgt.date) tgt.name
        (toMinutes tgt.time) with _ | best
    · simp [hce, hb] at h
    · by_cases hm : modalMatchesTarget p.modalText tgt
      · by_cases hf : formMatchesTarget p.formText p.bodyText tgt
        · simp [hce, hb, hm, hf]
        · simp [hce, hb, hm, hf] at h
      · simp [hce, hb, hm] at h

theorem mutation_requires_both_gates_witness :
    modalMatchesTarget pageAllPass.modalText targetBasic = true ∧
    formMatchesTarget pageAllPass.formText pageAllPass.bodyText targetBasic = true ∧
    (resolveAndMutate pageAllPass targetBasic).2 =
      [EngineAction.clickEvent, EngineAction.gateOverlay true,
       EngineAction.clickEdit, EngineAction.gateForm true,
       EngineAction.mutateCapacity, EngineAction.save,
       EngineAction.confirmSingle] :=
  mutation_requires_both_gates pageAllPass targetBasic (by decide)

/-- C7 counterexample: when the edit-form check rejects after the overlay
was already confirmed and the edit view opened, the engine returns with no
close attempt — the trace ends at the failed form gate and contains no
`closeModal` action. -/
theorem form_reject_skips_cleanup :
    (resolveAndMutate pageFormReject targetBasic).2 =
      [EngineAction.clickEvent, EngineAction.gateOverlay true,
       EngineAction.clickEdit, EngineAction.gateForm false] ∧
    EngineAction.closeModal ∉ (resolveAndMutate pageFormReject targetBasic).2 := by
  refine ⟨by decide, by decide⟩

/-- C7 (amended): the non-destructive close is attempted exactly on the
overlay-rejection path — whenever the trace records an overlay-gate
failure, the run ends click, overlay-fail, close; the edit-form rejection
path returns without any close attempt. -/
theorem overlay_reject_attempts_close (p : PageView) (tgt : Target)
    (h : EngineAction.gateOverlay false ∈ (openCorrectEvent p tgt).2) :
    (openCorrectEvent p tgt).2 =
      [EngineAction.clickEvent, EngineAction.gateOverlay false,
       EngineAction.closeModal] := by
  unfold openCorrectEvent at h ⊢
  by_cases hce : (dateCandidates p tgt.date).isEmpty
  · simp [hce] at h
  · rcases hb : bestCandidate (dateCandidates p tgt.date) tgt.name
        (toMinutes tgt.time) with _ | best
    · simp [hce, hb] at h
    · by_cases hm : modalMatchesTarget p.modalText tgt
      · simp [hce, hb, hm] at h
      · simp [hce, hb, hm]

theorem overlay_reject_attempts_close_witness :
    (openCorrectEvent pageModalReject targetBasic).2 =
      [EngineAction.clickEvent, EngineAction.gateOverlay false,
       EngineAction.closeModal] :=
  overlay_reject_attempts_close pageModalReject targetBasic (by decide)

/-- C10: every candidate preview is the event's text lowercased,
whitespace-collapsed and truncated to its first 160 characters; hence an
event whose full text contains the target name only beyond that bound gets
`nameScore` 0 even though the name occurs in the full text. -/
theorem preview_truncation_drops_late_names :
    (∀ (p : PageView) (d : List Char),
        dateCandidates p d =
          (p.events.filter (fun e => e.dateKeys.contains d)).map
            (fun e => (collapseWs (trimList (lowerList e.text))).take 160)) ∧
    (previewOf longEventText).length ≤ 160 ∧
    nameScore "yoga".toList (previewOf longEventText) = 0 ∧
    jsIncludes "yoga".toList (lowerList longEventText) = true := by
  refine ⟨fun p d => rfl, ?_, ?_, ?_⟩
  · set_option maxRecDepth 8192 in decide
  · set_option maxRecDepth 8192 in decide
  · set_option maxRecDepth 8192 in decide

/-- C9 counterexample: normalization is not idempotent — a dot left over
after a collapsed marker merges into it on a second pass:
`normTimeTokens("a.m..") = "am."` but `normTimeTokens("am.") = "am"`. -/
theorem norm_not_idempotent :
    normTimeTokens (normTimeTokens "a.m..".toList) ≠
      normTimeTokens "a.m..".toList := by decide

theorem char_ofNat_toNat {n : Nat} (h1 : 97 ≤ n) (h2 : n ≤ 122) :
    (Char.ofNat n).toNat = n := by
  have hv : n.isValidChar := Or.inl (by omega)
  simp [Char.ofNat, hv, Char.ofNatAux, Char.toNat, UInt32.toNat,
    BitVec.toNat_ofNatLt]

theorem toLower_toLower (c : Char) : c.toLower.toLower = c.toLower := by
  unfold Char.toLower
  by_cases h : c.toNat ≥ 65 ∧ c.toNat ≤ 90
  · have ht : (Char.ofNat (c.toNat + 32)).toNat = c.toNat + 32 :=
      char_ofNat_toNat (by omega) (by omega)
    simp only [h, and_self, if_true, ht]
    rw [if_neg (by omega)]
  · simp only [h, if_false]

theorem toLower_ne_dot {c : Char} (h : c.toLower = '.') : c = '.' := by
  unfold Char.toLower at h
  by_cases hb : c.toNat ≥ 65 ∧ c.toNat ≤ 90
  · exfalso
    have ht : (Char.ofNat (c.toNat + 32)).toNat = c.toNat + 32 :=
      char_ofNat_toNat (by omega) (by omega)
    rw [if_pos hb] at h
    have h2 : (Char.ofNat (c.toNat + 32)).toNat = ('.' : Char).toNat := by rw [h]
    rw [ht] at h2
    have h46 : ('.' : Char).toNat = 46 := by decide
    omega
  · rwa [if_neg hb] at h

theorem merNormal_nil (x : Char) : MerNormal x [] := by
  intro u v heq
  exact absurd heq (by simp)

theorem merNormal_cons (x c : Char) {t : List Char}
    (hhead : c = x → firstNonWs t = some 'm' → t.head? = some 'm')
    (htail : MerNormal x t) : MerNormal x (c :: t) := by
  intro u v heq hf
  cases u with
  | nil =>
    simp only [List.nil_append, List.cons.injEq] at heq
    obtain ⟨hc, hv⟩ := heq
    subst hv
    exact hhead hc hf
  | cons u0 u' =>
    simp only [List.cons_append, List.cons.injEq] at heq
    exact htail u' v heq.2 hf

theorem merNormal_of_cons {x c : Char} {t : List Char}
    (h : MerNormal x (c :: t)) : MerNormal x t := by
  intro u v heq hf
  exact h (c :: u) v (by simp [heq]) hf

theorem merNormal_head {x : Char} {t : List Char}
    (h : MerNormal x (x :: t)) (hf : firstNonWs t = some 'm') :
    t.head? = some 'm' :=
  h [] t rfl hf

theorem merNormal_suffix {x : Char} {l t : List Char}
    (h : MerNormal x l) (hs : t <:+ l) : MerNormal x t := by
  obtain ⟨w, hw⟩ := hs
  intro u v heq hf
  exact h (w ++ u) v (by rw [← hw, heq, List.append_assoc]) hf

theorem replaceMer_cons_match {x : Char} {t rest : List Char}
    (hm : merTail t = some rest) :
    replaceMer x (x :: t) = x :: 'm' :: replaceMer x rest := by
  rw [replaceMer_cons, if_pos rfl, hm]

theorem replaceMer_cons_nomatch {x : Char} {t : List Char}
    (hm : merTail t = none) :
    replaceMer x (x :: t) = x :: replaceMer x t := by
  rw [replaceMer_cons, if_pos rfl, hm]

theorem replaceMer_cons_ne {x c : Char} (t : List Char) (hc : c ≠ x) :
    replaceMer x (c :: t) = c :: replaceMer x t := by
  rw [replaceMer_cons, if_neg hc]

theorem mem_replaceMer (x : Char) :
    ∀ (n : Nat) (l : List Char), l.length ≤ n →
      ∀ c ∈ replaceMer x l, c ∈ l ∨ c = x ∨ c = 'm' := by
  intro n
  induction n with
  | zero =>
    intro l hl c hc
    rcases l with _ | _
    · rw [replaceMer_nil] at hc
      cases hc
    · simp at hl
  | succ n ih =>
    intro l hl c hc
    rcases l with _ | ⟨a, t⟩
    · rw [replaceMer_nil] at hc
      cases hc
    · simp only [List.length_cons, Nat.succ_le_succ_iff] at hl
      by_cases hax : a = x
      · subst hax
        rcases hm : merTail t with _ | rest
        · rw [replaceMer_cons_nomatch hm] at hc
          rcases List.mem_cons.mp hc with hc1 | hc2
          · exact Or.inl (hc1 ▸ List.mem_cons_self a t)
          · rcases ih t hl c hc2 with h1 | h2
            · exact Or.inl (List.mem_cons_of_mem a h1)
            · exact Or.inr h2
        · rw [replaceMer_cons_match hm] at hc
          rcases List.mem_cons.mp hc with hc1 | hc'
          · exact Or.inr (Or.inl hc1)
          · rcases List.mem_cons.mp hc' with hc2 | hc3
            · exact Or.inr (Or.inr hc2)
            · have hsub := (merTail_suffix hm).subset
              rcases ih rest ((merTail_length hm).trans hl) c hc3 with h1 | h2
              · exact Or.inl (List.mem_cons_of_mem a (hsub h1))
              · exact Or.inr h2
      · rw [replaceMer_cons_ne t hax] at hc
        rcases List.mem_cons.mp hc with hc1 | hc2
        · exact Or.inl (hc1 ▸ List.mem_cons_self a t)
        · rcases ih t hl c hc2 with h1 | h2
          · exact Or.inl (List.mem_cons_of_mem a h1)
          · exact Or.inr h2

theorem dropDot_dotfree {l : List Char} (h : '.' ∉ l) : dropDot l = l := by
  cases l with
  | nil => rfl
  | cons c t =>
    simp only [dropDot]
    rw [if_neg]
    intro hc
    apply h
    rw [← hc]
    exact List.mem_cons_self c t

theorem sepSkip_dotfree {l : List Char} (h : '.' ∉ l) :
    sepSkip l = l.dropWhile jsWs := by
  unfold sepSkip
  rcases hd : l.dropWhile jsWs with _ | ⟨c, t⟩
  · rfl
  · simp only
    rw [if_neg]
    intro hc
    apply h
    have hcl : c ∈ l := by
      refine (List.dropWhile_suffix jsWs).subset ?_
      rw [hd]
      exact List.mem_cons_self c t
    rwa [hc] at hcl

theorem merTail_some_dotfree {l r : List Char} (hdot : '.' ∉ l) :
    merTail l = some r ↔ l.dropWhile jsWs = 'm' :: r := by
  unfold merTail
  rw [sepSkip_dotfree hdot]
  constructor
  · intro h
    rcases hd : l.dropWhile jsWs with _ | ⟨c, t⟩ <;> rw [hd] at h
    · cases h
    · simp only at h
      by_cases hc : c = 'm'
      · subst hc
        rw [if_pos rfl] at h
        injection h with h1
        have hdt : '.' ∉ t := fun hm =>
          hdot ((List.dropWhile_suffix jsWs).subset
            (hd ▸ List.mem_cons_of_mem _ hm))
        rw [dropDot_dotfree hdt] at h1
        rw [h1]
      · rw [if_neg hc] at h
        cases h
  · intro h
    rw [h]
    have hdt : '.' ∉ r := by
      intro hm
      apply hdot
      refine (List.dropWhile_suffix jsWs).subset ?_
      rw [h]
      exact List.mem_cons_of_mem _ hm
    simp [dropDot_dotfree hdt]

theorem merTail_none_dotfree {l : List Char} (hdot : '.' ∉ l)
    (hf : firstNonWs l ≠ some 'm') : merTail l = none := by
  rcases hm : merTail l with _ | r
  · rfl
  · exfalso
    rw [merTail_some_dotfree hdot] at hm
    exact hf (by simp [firstNonWs, hm])

theorem firstNonWs_cons_ws {c : Char} {t : List Char} (h : jsWs c = true) :
    firstNonWs (c :: t) = firstNonWs t := by
  simp [firstNonWs, List.dropWhile, h]

theorem firstNonWs_cons_nws {c : Char} {t : List Char} (h : jsWs c = false) :
    firstNonWs (c :: t) = some c := by
  simp [firstNonWs, List.dropWhile, h]

theorem jsWs_m : jsWs 'm' = false := by decide

theorem firstNonWs_replaceMer {x : Char} (hxm : x ≠ 'm')
    (hxw : jsWs x = false) :
    ∀ (n : Nat) (l : List Char), l.length ≤ n →
      firstNonWs (replaceMer x l) = some 'm' → firstNonWs l = some 'm' := by
  intro n
  induction n with
  | zero =>
    intro l hl h
    rcases l with _ | _
    · exact h
    · simp at hl
  | succ n ih =>
    intro l hl h
    rcases l with _ | ⟨c, t⟩
    · exact h
    · simp only [List.length_cons, Nat.succ_le_succ_iff] at hl
      by_cases hcx : c = x
      · subst hcx
        rcases hm : merTail t with _ | rest
        · rw [replaceMer_cons_nomatch hm, firstNonWs_cons_nws hxw] at h
          exact absurd (Option.some.inj h) hxm
        · rw [replaceMer_cons_match hm, firstNonWs_cons_nws hxw] at h
          exact absurd (Option.some.inj h) hxm
      · rw [replaceMer_cons_ne t hcx] at h
        by_cases hw : jsWs c
        · rw [firstNonWs_cons_ws hw] at h
          rw [firstNonWs_cons_ws hw]
          exact ih t hl h
        · rw [firstNonWs_cons_nws (by simpa using hw)] at h
          rw [firstNonWs_cons_nws (by simpa using hw)]
          exact h

theorem merNormal_replaceMer {x : Char} (hxm : x ≠ 'm') (hxw : jsWs x = false) :
    ∀ (n : Nat) (l : List Char), l.length ≤ n → '.' ∉ l →
      MerNormal x (replaceMer x l) := by
  intro n
  induction n with
  | zero =>
    intro l hl hdot
    rcases l with _ | _
    · rw [replaceMer_nil]; exact merNormal_nil x
    · simp at hl
  | succ n ih =>
    intro l hl hdot
    rcases l with _ | ⟨c, t⟩
    · rw [replaceMer_nil]; exact merNormal_nil x
    · simp only [List.length_cons, Nat.succ_le_succ_iff] at hl
      have hdt : '.' ∉ t := fun hm => hdot (List.mem_cons_of_mem c hm)
      by_cases hcx : c = x
      · subst hcx
        rcases hm : merTail t with _ | rest
        · rw [replaceMer_cons_nomatch hm]
          refine merNormal_cons c c ?_ (ih t hl hdt)
          intro _ hf
          exfalso
          have hft : firstNonWs t = some 'm' :=
            firstNonWs_replaceMer hxm hxw t.length t (le_refl _) hf
          rcases ht : t.dropWhile jsWs with _ | ⟨d, t'⟩
          · rw [firstNonWs, ht] at hft; cases hft
          · have hd' : d = 'm' := by
              rw [firstNonWs, ht] at hft
              exact Option.some.inj hft
            subst hd'
            have hsome := (merTail_some_dotfree hdt).mpr ht
            rw [hm] at hsome
            cases hsome
        · rw [replaceMer_cons_match hm]
          refine merNormal_cons c c (fun _ _ => rfl) ?_
          refine merNormal_cons c 'm' (fun hmx => absurd hmx.symm hxm) ?_
          refine ih rest ((merTail_length hm).trans hl) ?_
          exact fun hmem => hdt ((merTail_suffix hm).subset hmem)
      · rw [replaceMer_cons_ne t hcx]
        exact merNormal_cons x c (fun hcx2 => absurd hcx2 hcx) (ih t hl hdt)

theorem replaceMer_fixpoint {x : Char} :
    ∀ (n : Nat) (l : List Char), l.length ≤ n → '.' ∉ l → MerNormal x l →
      replaceMer x l = l := by
  intro n
  induction n with
  | zero =>
    intro l hl hdot hnorm
    rcases l with _ | _
    · exact replaceMer_nil x
    · simp at hl
  | succ n ih =>
    intro l hl hdot hnorm
    rcases l with _ | ⟨c, t⟩
    · exact replaceMer_nil x
    · simp only [List.length_cons, Nat.succ_le_succ_iff] at hl
      have hdt : '.' ∉ t := fun hm => hdot (List.mem_cons_of_mem c hm)
      by_cases hcx : c = x
      · subst hcx
        rcases hm : merTail t with _ | rest
        · rw [replaceMer_cons_nomatch hm,
            ih t hl hdt (merNormal_of_cons hnorm)]
        · have h1 : t.dropWhile jsWs = 'm' :: rest :=
            (merTail_some_dotfree hdt).mp hm
          have hft : firstNonWs t = some 'm' := by rw [firstNonWs, h1]; rfl
          have hhd : t.head? = some 'm' := merNormal_head hnorm hft
          rcases t with _ | ⟨d, t'⟩
          · cases hhd
          · have hd : d = 'm' := Option.some.inj hhd
            subst hd
            have h2 : ('m' :: t').dropWhile jsWs = 'm' :: t' := by
              rw [List.dropWhile_cons, if_neg (by simp [jsWs_m])]
            rw [h2] at h1
            injection h1 with _ h3
            rw [replaceMer_cons_match hm, ← h3]
            have hnr : MerNormal c t' :=
              merNormal_suffix hnorm ⟨[c, 'm'], rfl⟩
            have hdt' : '.' ∉ t' := fun hmem =>
              hdt (List.mem_cons_of_mem 'm' hmem)
            rw [ih t' (by simp at hl; omega) hdt' hnr]
      · rw [replaceMer_cons_ne t hcx,
          ih t hl hdt (merNormal_of_cons hnorm)]

theorem merNormal_preserved {x y : Char} (hyx : y ≠ x) (hxm : x ≠ 'm')
    (hym : y ≠ 'm') (hyw : jsWs y = false) :
    ∀ (n : Nat) (l : List Char), l.length ≤ n → MerNormal x l →
      MerNormal x (replaceMer y l) := by
  intro n
  induction n with
  | zero =>
    intro l hl hnorm
    rcases l with _ | _
    · rw [replaceMer_nil]; exact merNormal_nil x
    · simp at hl
  | succ n ih =>
    intro l hl hnorm
    rcases l with _ | ⟨c, t⟩
    · rw [replaceMer_nil]; exact merNormal_nil x
    · simp only [List.length_cons, Nat.succ_le_succ_iff] at hl
      by_cases hcy : c = y
      · subst hcy
        rcases hm : merTail t with _ | rest
        · rw [replaceMer_cons_nomatch hm]
          refine merNormal_cons x c (fun hcx => absurd hcx (fun hh => hyx hh)) ?_
          exact ih t hl (merNormal_of_cons hnorm)
        · rw [replaceMer_cons_match hm]
          refine merNormal_cons x c (fun hcx => absurd hcx (fun hh => hyx hh)) ?_
          refine merNormal_cons x 'm' (fun hmx => absurd hmx.symm hxm) ?_
          refine ih rest ((merTail_length hm).trans hl) ?_
          refine merNormal_suffix hnorm ?_
          exact (merTail_suffix hm).trans ⟨[c], rfl⟩
      · rw [replaceMer_cons_ne t hcy]
        refine merNormal_cons x c ?_ (ih t hl (merNormal_of_cons hnorm))
        intro hcx hf
        subst hcx
        have hft : firstNonWs t = some 'm' :=
          firstNonWs_replaceMer hym hyw t.length t (le_refl _) hf
        have hhd : t.head? = some 'm' := merNormal_head hnorm hft
        rcases t with _ | ⟨d, t'⟩
        · cases hhd
        · have hd : d = 'm' := Option.some.inj hhd
          subst hd
          rw [replaceMer_cons_ne t' (fun hmy => hym hmy.symm)]
          rfl

theorem lowerList_self {l : List Char} (h : ∀ c ∈ l, c.toLower = c) :
    lowerList l = l := by
  unfold lowerList
  induction l with
  | nil => rfl
  | cons c t ih =>
    rw [List.map_cons, h c (List.mem_cons_self c t),
      ih (fun d hd => h d (List.mem_cons_of_mem c hd))]

theorem dot_not_mem_lowerList {l : List Char} (h : '.' ∉ l) :
    '.' ∉ lowerList l := by
  intro hm
  obtain ⟨d, hd, hld⟩ := List.mem_map.mp hm
  exact h ((toLower_ne_dot hld) ▸ hd)

theorem dot_not_mem_replaceMer {x : Char} {l : List Char} (hx : x ≠ '.')
    (h : '.' ∉ l) : '.' ∉ replaceMer x l := by
  intro hm
  rcases mem_replaceMer x l.length l (le_refl _) '.' hm with h1 | h2 | h3
  · exact h h1
  · exact hx h2.symm
  · cases h3

theorem toLower_fixed_in_norm {l : List Char} {c : Char}
    (hc : c ∈ normTimeTokens l) : c.toLower = c := by
  unfold normTimeTokens at hc
  rcases mem_replaceMer 'p' (replaceMer 'a' (lowerList l)).length _
      (le_refl _) c hc with h1 | h2 | h3
  · rcases mem_replaceMer 'a' (lowerList l).length _ (le_refl _) c h1
        with g1 | g2 | g3
    · obtain ⟨d, _, hd⟩ := List.mem_map.mp g1
      rw [← hd]
      exact toLower_toLower d
    · rw [g2]; decide
    · rw [g3]; decide
  · rw [h2]; decide
  · rw [h3]; decide

/-- C9 (amended): on every input containing no '.' character, the
normalizer is idempotent; in general a second application can merge a
leftover dot into a collapsed marker (see the counterexample), so
idempotence holds only away from dotted meridiem spellings. -/
theorem norm_idempotent_dotfree (l : List Char) (hdot : '.' ∉ l) :
    normTimeTokens (normTimeTokens l) = normTimeTokens l := by
  have hd0 : '.' ∉ lowerList l := dot_not_mem_lowerList hdot
  have hd1 : '.' ∉ replaceMer 'a' (lowerList l) :=
    dot_not_mem_replaceMer (by decide) hd0
  have hd2 : '.' ∉ normTimeTokens l :=
    dot_not_mem_replaceMer (by decide) hd1
  have hlow : lowerList (normTimeTokens l) = normTimeTokens l :=
    lowerList_self (fun c hc => toLower_fixed_in_norm hc)
  have hna : MerNormal 'a' (replaceMer 'a' (lowerList l)) :=
    merNormal_replaceMer (by decide) (by decide)
      (lowerList l).length _ (le_refl _) hd0
  have hna2 : MerNormal 'a' (normTimeTokens l) :=
    merNormal_preserved (by decide) (by decide) (by decide) (by decide)
      (replaceMer 'a' (lowerList l)).length _ (le_refl _) hna
  have hnp : MerNormal 'p' (normTimeTokens l) :=
    merNormal_replaceMer (by decide) (by decide)
      (replaceMer 'a' (lowerList l)).length _ (le_refl _) hd1
  show replaceMer 'p' (replaceMer 'a' (lowerList (normTimeTokens l)))
      = normTimeTokens l
  rw [hlow,
    replaceMer_fixpoint (normTimeTokens l).length _ (le_refl _) hd2 hna2]
  exact replaceMer_fixpoint (normTimeTokens l).length _ (le_refl _) hd2 hnp

theorem norm_idempotent_dotfree_witness :
    normTimeTokens (normTimeTokens "1:00 P M Yoga".toList) =
      normTimeTokens "1:00 P M Yoga".toList :=
  norm_idempotent_dotfree "1:00 P M Yoga".toList (by decide)
